import Mathlib

/-!
Verification of the tagnote tag-graph engine (`tagnote/tag.py`, revision 3.0.1).

Strings from the Python source are modelled as `List Char`; Python `int`
values as `Int`; Python exceptions (`TagError`, `ValueError`) as
`Except`/`Option` results.  Each definition below mirrors one function or
method of `tagnote/tag.py`; the theorems at the end of the file settle the
specification claims against these definitions.
-/

namespace Tagnote

/-- Equality of `Except` results is decidable when it is on both sides. -/
instance {ε α : Type} [DecidableEq ε] [DecidableEq α] : DecidableEq (Except ε α) :=
  fun a b =>
    match a, b with
    | .error e₁, .error e₂ =>
        if h : e₁ = e₂ then isTrue (by rw [h]) else isFalse (by simp [h])
    | .ok v₁, .ok v₂ =>
        if h : v₁ = v₂ then isTrue (by rw [h]) else isFalse (by simp [h])
    | .error _, .ok _ => isFalse (by simp)
    | .ok _, .error _ => isFalse (by simp)

/-- ASCII decimal digit test, the fragment of the regex class `\d` exercised
by the program's inputs (Python's `re` would additionally accept non-ASCII
unicode digits). -/
def isDigitChar (c : Char) : Bool := 48 ≤ c.toNat && c.toNat ≤ 57

/-- Numeric value of an ASCII digit character. -/
def digitVal (c : Char) : Nat := c.toNat - 48

/-- Value of a string of decimal digits, most significant first. -/
def digitsVal (s : List Char) : Nat := s.foldl (fun a c => 10 * a + digitVal c) 0

/-- Parse a non-empty all-digit string as a natural number. -/
def digitsNat (s : List Char) : Option Nat :=
  if s ≠ [] ∧ s.all isDigitChar then some (digitsVal s) else none

/-- Python `int(s)` on the ASCII strings this program feeds it: an optional
sign followed by one or more ASCII digits.  `none` models `ValueError`.
(Python additionally strips whitespace and accepts unicode digits; no input
relevant to the claims uses those forms.) -/
def pyInt (s : List Char) : Option Int :=
  match s with
  | [] => none
  | c :: rest =>
      if c = '+' then (digitsNat rest).map Int.ofNat
      else if c = '-' then (digitsNat rest).map (fun n => -(n : Int))
      else (digitsNat (c :: rest)).map Int.ofNat

/-- Python `str(n)` for a natural number: decimal digits, no padding. -/
def natStr (n : Nat) : List Char :=
  if _h : n < 10 then [Nat.digitChar n]
  else natStr (n / 10) ++ [Nat.digitChar (n % 10)]
termination_by n
decreasing_by exact Nat.div_lt_self (by omega) (by omega)

/-- `TagError` from `tag.py`: a message plus the exit status that identifies
the error kind (`EXIT_NOTE_NOT_EXISTS = 23`, `EXIT_LABEL_NOT_EXISTS = 25`,
`EXIT_BAD_NAME = 26`, `EXIT_BAD_RANGE = 27`, `EXIT_BAD_TIMESTAMP = 35`,
`EXIT_BAD_DATE_PATTERN = 36`, `EXIT_BAD_DATE_RANGE = 37`). -/
structure TagError where
  message : String
  exit_status : Nat
deriving DecidableEq, Repr

def TagError.EXIT_NOTE_NOT_EXISTS : Nat := 23

def TagError.EXIT_LABEL_NOT_EXISTS : Nat := 25

def TagError.EXIT_BAD_NAME : Nat := 26

def TagError.EXIT_BAD_RANGE : Nat := 27

def TagError.EXIT_BAD_TIMESTAMP : Nat := 35

def TagError.EXIT_BAD_DATE_PATTERN : Nat := 36

def TagError.EXIT_BAD_DATE_RANGE : Nat := 37

/-! ### Tag name patterns (`Note.PATTERN`, `Label.PATTERN`, `tag_of`) -/

/-- ASCII fragment of the regex class `\w`: letters, digits, underscore. -/
def isWordChar (c : Char) : Bool := c.isAlphanum || c = '_'

/-- `Note.PATTERN`, the regex `^\d{4}-\d{2}-\d{2}_\d{2}-\d{2}-\d{2}.txt$`
from the source, matched against a whole name.  The character before `txt`
is an UNESCAPED regex dot, which matches any character except a newline;
this is transcribed faithfully (`dot ≠ '\n'`).  Modelled for names without
a trailing newline (Python's `$` would also match just before one). -/
def noteName : List Char → Bool
  | [y1, y2, y3, y4, '-', mo1, mo2, '-', d1, d2, '_',
     h1, h2, '-', mi1, mi2, '-', s1, s2, dot, 't', 'x', 't'] =>
      [y1, y2, y3, y4, mo1, mo2, d1, d2, h1, h2, mi1, mi2, s1, s2].all isDigitChar
        && dot ≠ '\n'
  | _ => false

/-- `Label.PATTERN`, the regex `^[\w-]+$` from the source (ASCII fragment),
matched against a whole name without a trailing newline. -/
def labelName (s : List Char) : Bool :=
  !s.isEmpty && s.all (fun c => isWordChar c || c = '-')

/-- The two tag variants, in the fixed priority order of `TAG_TYPES`. -/
inductive TagType
  | note
  | label
deriving DecidableEq, Repr

/-- `tag_of`: try each variant's pattern in order (Note before Label) and
return the first match; no match is a `BadName` error (exit status 26). -/
def tagTypeOf (s : List Char) : Except TagError TagType :=
  if noteName s then .ok .note
  else if labelName s then .ok .label
  else .error ⟨"No tag type for '" ++ String.mk s ++ "'", TagError.EXIT_BAD_NAME⟩

/-- `Tag.not_exists_error` of the variant classified for a name: a Note gives
`EXIT_NOTE_NOT_EXISTS` (23), a Label gives `EXIT_LABEL_NOT_EXISTS` (25).
The Python message also includes the directory; the model keeps the name. -/
def notExistsError (t : TagType) (name : List Char) : TagError :=
  match t with
  | .note => ⟨"Note '" ++ String.mk name ++ "' does not exist",
      TagError.EXIT_NOTE_NOT_EXISTS⟩
  | .label => ⟨"Label '" ++ String.mk name ++ "' does not exist",
      TagError.EXIT_LABEL_NOT_EXISTS⟩

/-! ### Ranges over result lists (`parse_range`, `run_order_range`) -/

/-- Python's `str.split(sep)` with a single-character separator and no limit:
`"".split(":") = [""]`, `":".split(":") = ["", ""]`, and so on. -/
def splitAll (d : Char) : List Char → List (List Char)
  | [] => [[]]
  | c :: rest =>
      if c = d then [] :: splitAll d rest
      else
        match splitAll d rest with
        | [] => [[c]]
        | a :: as => (c :: a) :: as

/-- Python whitespace for `str.strip()` (`\x0b` and `\x0c` written by code
point). -/
def isPySpace (c : Char) : Bool :=
  c = ' ' || c = '\t' || c = '\n' || c = '\r' || c.toNat = 11 || c.toNat = 12

/-- A Python `slice` object as built by `parse_range`: `start` and `stop`
are always concrete integers there (defaults 0 and -1 are substituted at
parse time); `step` is `None` unless three components were given. -/
structure PySlice where
  start : Int
  stop : Int
  step : Option Int
deriving DecidableEq, Repr

/-- The `try_int` helper inside `parse_range`, with the default used for an
empty component: `int(c)` if `c` is non-empty, else `dflt`; a `ValueError`
becomes `BadRange` (exit status 27). -/
def tryIntD (text c : List Char) (dflt : Int) : Except TagError Int :=
  if c.isEmpty then .ok dflt
  else
    match pyInt c with
    | some n => .ok n
    | none => .error ⟨"Bad range: '" ++ String.mk text ++ "'", TagError.EXIT_BAD_RANGE⟩

/-- `parse_range`: split on `:`; one component `N` gives `slice(N, N+1)`;
two give `slice(start, stop)` with omitted start defaulting to `0` and
omitted stop defaulting to `-1`; three add a step defaulting to `1`. -/
def parse_range (text : List Char) : Except TagError PySlice :=
  if text.all isPySpace then .error ⟨"Empty range", TagError.EXIT_BAD_RANGE⟩
  else
    let components := splitAll ':' text
    if components.length > 3 || components.length < 1 then
      .error ⟨"Bad range: '" ++ String.mk text ++ "'", TagError.EXIT_BAD_RANGE⟩
    else
      match components with
      | [c0] => (tryIntD text c0 0).map (fun s => ⟨s, s + 1, none⟩)
      | [c0, c1] => do
          let s ← tryIntD text c0 0
          let e ← tryIntD text c1 (-1)
          pure ⟨s, e, none⟩
      | [c0, c1, c2] => do
          let s ← tryIntD text c0 0
          let e ← tryIntD text c1 (-1)
          let st ← tryIntD text c2 1
          pure ⟨s, e, some st⟩
      | _ => .error ⟨"Bad range: '" ++ String.mk text ++ "'", TagError.EXIT_BAD_RANGE⟩

/-- Number of indices of an arithmetic progression `lo, lo+step, ...` that
stay strictly below `hi`, for a positive `step`. -/
def sliceCount (lo hi step : Int) : Nat :=
  (if hi > lo then (hi - lo - 1) / step + 1 else 0).toNat

/-- Python list slicing `l[sl]` for a slice with concrete integer `start`
and `stop` (as produced by `parse_range`): negative indices count from the
end, indices are clamped, `step = None` behaves as 1, and `step = 0` raises
`ValueError` (modelled as `none`). -/
def pySlice {α : Type} (l : List α) (sl : PySlice) : Option (List α) :=
  let n : Int := l.length
  let step := sl.step.getD 1
  if step = 0 then none
  else if step > 0 then
    let lo := if sl.start < 0 then max (sl.start + n) 0 else min sl.start n
    let hi := if sl.stop < 0 then max (sl.stop + n) 0 else min sl.stop n
    some (((List.range (sliceCount lo hi step)).map
      (fun k => l[(lo + k * step).toNat]?)).reduceOption)
  else
    let lo := if sl.start < 0 then max (sl.start + n) (-1) else min sl.start (n - 1)
    let hi := if sl.stop < 0 then max (sl.stop + n) (-1) else min sl.stop (n - 1)
    some (((List.range (sliceCount hi lo (-step))).map
      (fun k => l[(lo + k * step).toNat]?)).reduceOption)

/-- The range stage of `run_order_range`: when a range expression is
present, the materialized result list is sliced by `parse_range`'s slice. -/
def applyRange {α : Type} (text : List Char) (results : List α) :
    Except TagError (Option (List α)) :=
  (parse_range text).map (fun sl => pySlice results sl)

/-! ### Timestamps (`left_pad`, `format_timestamp`, `split_timestamp`,
`parse_timestamp`) -/

/-- `left_pad(text, length, padding)` with a single-character padding; text
longer than `length` raises `ValueError` (modelled as `none`). -/
def left_pad (text : List Char) (length : Nat) (padding : Char) : Option (List Char) :=
  if text.length > length then none
  else some (List.replicate (length - text.length) padding ++ text)

/-- A Python `datetime` value, restricted to the fields this program uses. -/
structure Datetime where
  year : Nat
  month : Nat
  day : Nat
  hour : Nat
  minute : Nat
  second : Nat
deriving DecidableEq, Repr

/-- Gregorian leap-year rule, as implemented by Python's `datetime`. -/
def isLeapYear (y : Nat) : Bool :=
  (y % 4 = 0 && y % 100 ≠ 0) || y % 400 = 0

/-- Days in a month, as validated by Python's `datetime`. -/
def daysInMonth (y m : Nat) : Nat :=
  if m = 2 then (if isLeapYear y then 29 else 28)
  else if m = 4 ∨ m = 6 ∨ m = 9 ∨ m = 11 then 30
  else 31

/-- The validity condition Python's `datetime(...)` constructor enforces on
these six fields. -/
def Datetime.valid (t : Datetime) : Prop :=
  1 ≤ t.year ∧ t.year ≤ 9999 ∧ 1 ≤ t.month ∧ t.month ≤ 12 ∧
  1 ≤ t.day ∧ t.day ≤ daysInMonth t.year t.month ∧
  t.hour ≤ 23 ∧ t.minute ≤ 59 ∧ t.second ≤ 59

instance (t : Datetime) : Decidable t.valid := by
  unfold Datetime.valid
  infer_instance

/-- `datetime(y, mo, d[, h[, mi[, s]]])` on integer arguments: missing
trailing fields default to 0; out-of-range values raise `ValueError`
(modelled as `none`). -/
def mkDatetime6 (y mo d h mi s : Int) : Option Datetime :=
  if 1 ≤ y ∧ y ≤ 9999 ∧ 1 ≤ mo ∧ mo ≤ 12 ∧
      1 ≤ d ∧ d ≤ (daysInMonth y.toNat mo.toNat : Int) ∧
      0 ≤ h ∧ h ≤ 23 ∧ 0 ≤ mi ∧ mi ≤ 59 ∧ 0 ≤ s ∧ s ≤ 59 then
    some ⟨y.toNat, mo.toNat, d.toNat, h.toNat, mi.toNat, s.toNat⟩
  else none

/-- `datetime(*args)`: fewer than three or more than six arguments raise
`TypeError` (modelled as `none`; `split_timestamp` produces at most six). -/
def mkDatetime : List Int → Option Datetime
  | [y, mo, d] => mkDatetime6 y mo d 0 0 0
  | [y, mo, d, h] => mkDatetime6 y mo d h 0 0
  | [y, mo, d, h, mi] => mkDatetime6 y mo d h mi 0
  | [y, mo, d, h, mi, s] => mkDatetime6 y mo d h mi s
  | _ => none

/-- `format_timestamp`: six zero-padded fields joined as
`year-month-day_hour-minute-second`. -/
def format_timestamp (t : Datetime) : Option (List Char) := do
  let y ← left_pad (natStr t.year) 4 '0'
  let mo ← left_pad (natStr t.month) 2 '0'
  let d ← left_pad (natStr t.day) 2 '0'
  let h ← left_pad (natStr t.hour) 2 '0'
  let mi ← left_pad (natStr t.minute) 2 '0'
  let s ← left_pad (natStr t.second) 2 '0'
  pure (y ++ '-' :: (mo ++ '-' :: (d ++ '_' :: (h ++ '-' :: (mi ++ '-' :: s)))))

/-- Python `s.split(d, 1)`: the part before the first occurrence of `d`,
and the remainder after it if `d` occurs. -/
def splitOnce (d : Char) : List Char → List Char × Option (List Char)
  | [] => ([], none)
  | c :: rest =>
      if c = d then ([], some rest)
      else
        let p := splitOnce d rest
        (c :: p.1, p.2)

/-- The delimiter sequence of `split_timestamp`. -/
def delimiters : List Char := ['-', '-', '_', '-', '-']

/-- The `TagError` raised by `split_timestamp` and `parse_timestamp`:
exit status `EXIT_BAD_TIMESTAMP` (35). -/
def badTimestamp (ts : List Char) : TagError :=
  ⟨"Bad timestamp: " ++ String.mk ts, TagError.EXIT_BAD_TIMESTAMP⟩

/-- `set(delimiters).difference({d})`: the delimiters other than `d`. -/
def outlierOf (d : Char) : List Char := ['-', '_'].filter (fun c => c ≠ d)

/-- The loop of `split_timestamp`: pop the rightmost element, split it once
on the next delimiter; an empty first part or an outlier delimiter inside
the first part raises `BadTimestamp`; if the delimiter does not occur the
loop breaks early.  Returns the completed components and the last element. -/
def splitLoop (ts : List Char) : List Char → List Char →
    Except TagError (List (List Char) × List Char)
  | [], rest => .ok ([], rest)
  | d :: ds, rest =>
      let p := splitOnce d rest
      if p.1.isEmpty then .error (badTimestamp ts)
      else if (outlierOf d).any (fun c => p.1.contains c) then .error (badTimestamp ts)
      else
        match p.2 with
        | some tail => (splitLoop ts ds tail).map (fun r => (p.1 :: r.1, r.2))
        | none => .ok ([], p.1)

/-- `split_timestamp`: run the delimiter loop, then reject any remaining
delimiter inside the final component. -/
def split_timestamp (ts : List Char) : Except TagError (List (List Char)) := do
  let r ← splitLoop ts delimiters ts
  if ['-', '_'].any (fun d => r.2.contains d) then .error (badTimestamp ts)
  else pure (r.1 ++ [r.2])

/-- `[int(i) for i in split]`, aborting at the first `ValueError`. -/
def pyInts : List (List Char) → Option (List Int)
  | [] => some []
  | c :: cs => do
      let n ← pyInt c
      let ns ← pyInts cs
      pure (n :: ns)

/-- `parse_timestamp`: split, convert every component with `int`, and build
a `datetime`; any failure is `BadTimestamp` (exit status 35). -/
def parse_timestamp (ts : List Char) : Except TagError Datetime := do
  let comps ← split_timestamp ts
  match pyInts comps with
  | none => .error (badTimestamp ts)
  | some ints =>
      match mkDatetime ints with
      | none => .error (badTimestamp ts)
      | some t => pure t

/-! ### Date patterns and ranges (`DatePattern`, `DateRange`) -/

/-- `DatePattern`: six optional integer fields; `none` is the wildcard. -/
structure DatePattern where
  year : Option Int
  month : Option Int
  day : Option Int
  hour : Option Int
  minute : Option Int
  second : Option Int
deriving DecidableEq, Repr

/-- `DatePattern(*elements)`: more than six elements raise `BadDatePattern`
(exit status 36); missing trailing elements are padded with the wildcard. -/
def DatePattern.ofElements (es : List (Option Int)) : Except TagError DatePattern :=
  if es.length > 6 then
    .error ⟨"Too many elements in date pattern", TagError.EXIT_BAD_DATE_PATTERN⟩
  else
    .ok ⟨es.getD 0 none, es.getD 1 none, es.getD 2 none,
      es.getD 3 none, es.getD 4 none, es.getD 5 none⟩

/-- `DatePattern.parse_element`: the wildcard token `*` gives the wildcard;
otherwise `int(element)`, a `ValueError` becoming `BadDatePattern` (36). -/
def DatePattern.parse_element (e : List Char) : Except TagError (Option Int) :=
  if e = ['*'] then .ok none
  else
    match pyInt e with
    | some n => .ok (some n)
    | none => .error ⟨"Bad date pattern element: " ++ String.mk e,
        TagError.EXIT_BAD_DATE_PATTERN⟩

/-- `[parse_element(i) for i in split_timestamp(pattern)]`, aborting at the
first error. -/
def parseElements : List (List Char) → Except TagError (List (Option Int))
  | [] => .ok []
  | c :: cs => do
      let e ← DatePattern.parse_element c
      let es ← parseElements cs
      pure (e :: es)

/-- `DatePattern.from_string`. -/
def DatePattern.from_string (p : List Char) : Except TagError DatePattern := do
  let comps ← split_timestamp p
  let es ← parseElements comps
  DatePattern.ofElements es

/-- The six fields of a pattern in comparison order. -/
def DatePattern.fields (p : DatePattern) : List (Option Int) :=
  [p.year, p.month, p.day, p.hour, p.minute, p.second]

/-- The six fields of a concrete `datetime`, all present. -/
def Datetime.intFields (t : Datetime) : List (Option Int) :=
  [some t.year, some t.month, some t.day, some t.hour, some t.minute, some t.second]

/-- The `other` operand of `DatePattern._compare`: another pattern or a
concrete `datetime`. -/
inductive DPOperand
  | pat (p : DatePattern)
  | dt (t : Datetime)
deriving DecidableEq, Repr

def DPOperand.fields : DPOperand → List (Option Int)
  | .pat p => p.fields
  | .dt t => t.intFields

/-- The field loop of `DatePattern._compare`: skip a field when either side
is the wildcard or both are equal; the first remaining field decides via
`op`; if every field is skipped the result is `True`. -/
def compareFields (op : Int → Int → Bool) : List (Option Int) → List (Option Int) → Bool
  | some x :: as, some y :: bs =>
      if x = y then compareFields op as bs else op x y
  | _ :: as, _ :: bs => compareFields op as bs
  | _, _ => true

/-- `DatePattern.__le__`. -/
def DatePattern.le (p : DatePattern) (o : DPOperand) : Bool :=
  compareFields (fun x y => decide (x ≤ y)) p.fields o.fields

/-- `DatePattern.__ge__`. -/
def DatePattern.ge (p : DatePattern) (o : DPOperand) : Bool :=
  compareFields (fun x y => decide (x ≥ y)) p.fields o.fields

/-- `DateRange`: an inclusive pair of patterns.  The source's field name
`end` is a Lean keyword; it is called `stop` here. -/
structure DateRange where
  start : DatePattern
  stop : DatePattern
deriving DecidableEq, Repr

/-- `DateRange.from_string`: split on `:`; a single element is duplicated;
other than two elements is `BadDateRange` (exit status 37). -/
def DateRange.from_string (r : List Char) : Except TagError DateRange := do
  let elements :=
    match splitAll ':' r with
    | [x] => [x, x]
    | es => es
  match elements with
  | [a, b] => do
      let s ← DatePattern.from_string a
      let e ← DatePattern.from_string b
      pure ⟨s, e⟩
  | _ => .error ⟨"Bad date range: " ++ String.mk r, TagError.EXIT_BAD_DATE_RANGE⟩

/-- `DateRange.match` (named `matches` here; `match` is a Lean keyword):
the Python chained comparison `start <= other <= end`.  `start <= other`
dispatches to `DatePattern.__le__`; `other <= end` dispatches to the
pattern's `__le__` when `other` is a pattern, and — because `datetime` does
not know `DatePattern` — to the reflected `end.__ge__(other)` when `other`
is a concrete `datetime`. -/
def DateRange.matches (r : DateRange) (o : DPOperand) : Bool :=
  r.start.le o &&
    (match o with
     | .pat p => p.le (.pat r.stop)
     | .dt t => r.stop.ge (.dt t))

/-! ### The membership store (`Label.write_members`, `Label.add_member`,
`Label.remove_member`).

All tags written into one label's file live in the label's own directory,
so a tag is determined by its name and tags compare by name; the member
file is modelled as the list of its lines, one member name per line, over
an arbitrary linearly ordered type of names (Python compares `str` names
lexicographically by code point, a linear order). -/

/-- `list(set(members)); members.sort()`: the sorted list of the distinct
member names. -/
def canonicalize {α : Type} [LinearOrder α] (l : List α) : List α :=
  (l.dedup).insertionSort (fun a b => a ≤ b)

/-- `bisect_left(members, tag)` on a sorted list: the number of leading
elements strictly below `tag`, which is the leftmost insertion point. -/
def bisect_left {α : Type} [LinearOrder α] (l : List α) (t : α) : Nat :=
  (l.takeWhile (fun x => decide (x < t))).length

/-- `Label.add_member`: read and canonicalize the member lines, look up the
insertion point; if the element there is not `tag`, insert it; in every
case rewrite the whole file; report whether an insertion happened. -/
def add_member {α : Type} [LinearOrder α] (file : List α) (t : α) : List α × Bool :=
  let members := canonicalize file
  let i := bisect_left members t
  if members[i]? = some t then (members, false)
  else (members.insertIdx i t, true)

/-- `Label.remove_member`: read and canonicalize the member lines, remove
`tag` if present (`list.remove`, first occurrence; its `ValueError` when
absent is swallowed); in every case rewrite the whole file. -/
def remove_member {α : Type} [LinearOrder α] (file : List α) (t : α) : List α × Bool :=
  let members := canonicalize file
  if t ∈ members then (members.erase t, true) else (members, false)

/-- One mutation of a label's member file. -/
inductive MemberOp (α : Type)
  | add (t : α)
  | remove (t : α)

/-- The member file after one `add_member`/`remove_member` call. -/
def applyOp {α : Type} [LinearOrder α] (file : List α) : MemberOp α → List α
  | .add t => (add_member file t).1
  | .remove t => (remove_member file t).1

/-! ### `Label.members` with existence checking (`Tag.check_exists`) -/

/-- One step of the `Label.members` generator: classify a member line with
`tag_of`, then `check_exists`; a missing backing file raises the variant's
"does not exist" error. -/
def memberCheck (disk : List Char → Bool) (name : List Char) :
    Except TagError (TagType × List Char) := do
  let ty ← tagTypeOf name
  if disk name then pure (ty, name) else .error (notExistsError ty name)

/-- `[check(m) for m in lines]`, aborting at the first error. -/
def checkMembers (disk : List Char → Bool) : List (List Char) →
    Except TagError (List (TagType × List Char))
  | [] => .ok []
  | l :: ls => do
      let t ← memberCheck disk l
      let ts ← checkMembers disk ls
      pure (t :: ts)

/-- `Label.members`: `check_exists` on the label itself, then classify and
existence-check every member line; `disk` tells which names have a backing
file in the directory. -/
def label_members (disk : List Char → Bool) (self : List Char)
    (lines : List (List Char)) : Except TagError (List (TagType × List Char)) :=
  if disk self then checkMembers disk lines
  else .error (notExistsError .label self)

/-! ### Graph traversal (`AllTagsFrom`) -/

/-- The pending-queue update of `AllTagsFrom.__next__`: for each member in
order, `if member not in visited: remaining.setdefault(member)` — an
`OrderedDict.setdefault` appends the key at the back only if it is not
already pending. -/
def enqueue {V : Type} [DecidableEq V] (vis : Finset V) :
    List V → List V → List V
  | queue, [] => queue
  | queue, m :: ms =>
      if m ∈ vis ∨ m ∈ queue then enqueue vis queue ms
      else enqueue vis (queue ++ [m]) ms

/-- The exploration order of `AllTagsFrom`: repeatedly pop the front of the
pending queue, mark it visited, enqueue its unvisited members.  `fuel`
bounds the number of iterations; with fuel at least the number of tags the
queue always empties first (proved below), which is the termination claim. -/
def bfsExplore {V : Type} [DecidableEq V] (members : V → List V) :
    Nat → Finset V → List V → List V
  | 0, _, _ => []
  | _ + 1, _, [] => []
  | fuel + 1, vis, c :: rest =>
      let vis' := insert c vis
      c :: bfsExplore members fuel vis' (enqueue vis' rest (members c))

/-- `AllTagsFrom(category, tag_type)` as a list: the exploration order
restricted to the tags matching the type filter (`valid_tag_instance`);
filtering affects only which tags are yielded, not which are explored. -/
def allTagsFrom {V : Type} [DecidableEq V] [Fintype V] (members : V → List V)
    (keep : V → Bool) (root : V) : List V :=
  (bfsExplore members (Fintype.card V) ∅ [root]).filter keep

/-- The membership edge relation: `b` is listed among `a`'s members. -/
def MemberStep {V : Type} (members : V → List V) (a b : V) : Prop :=
  b ∈ members a

/-- Reachability along membership edges (reflexive-transitive closure). -/
def ReachesFrom {V : Type} (members : V → List V) (root v : V) : Prop :=
  Relation.ReflTransGen (MemberStep members) root v

/-- `AllTagsFrom` when exploring a tag can fail (`members()` raising): the
same BFS, propagating the first error uncaught. -/
def bfsExploreE {V : Type} [DecidableEq V] (membersE : V → Except TagError (List V))
    (keep : V → Bool) : Nat → Finset V → List V → Except TagError (List V)
  | 0, _, _ => .ok []
  | _ + 1, _, [] => .ok []
  | fuel + 1, vis, c :: rest =>
      match membersE c with
      | .error e => .error e
      | .ok ms => do
          let vis' := insert c vis
          let out ← bfsExploreE membersE keep fuel vis' (enqueue vis' rest ms)
          pure (if keep c then c :: out else out)

/-! ## Theorems -/

/-! ### The slice taken for an omitted stop (claim C1) -/

/-- C1 (code bug): `parse_range` maps `"0:"` to `slice(0, -1)`, and Python
list slicing with stop `-1` cuts BEFORE the last element: on `[a, b, c]`
the range stage returns `[a, b]`, not the whole list, so an omitted stop
does not mean "to the end" as the specification states.  (In the earlier
SQL-backed revision the same `-1` became a negative SQL `LIMIT`, which does
mean "unlimited"; carried into real slicing it drops the last element.) -/
theorem parse_range_open_stop_drops_last :
    parse_range "0:".toList = .ok ⟨0, -1, none⟩ ∧
    pySlice ["a", "b", "c"] ⟨0, -1, none⟩ = some ["a", "b"] ∧
    applyRange "0:".toList ["a", "b", "c"] = .ok (some ["a", "b"]) := by
  refine ⟨by decide, by decide, by decide⟩

/-! ### Overlap of the Note and Label name patterns (claim C2) -/

/-- C2 (code bug): the dot in `Note.PATTERN` is unescaped, so the pattern
accepts `2020-01-01_00-00-00_txt` (any character in the dot position), a
name that the Label pattern `^[\w-]+$` also accepts: the two patterns are
not disjoint, and the Note pattern is not the bit-exact literal-dot form
the specification states. -/
theorem note_label_patterns_overlap :
    noteName "2020-01-01_00-00-00_txt".toList = true ∧
    labelName "2020-01-01_00-00-00_txt".toList = true ∧
    noteName "2020-01-01_00-00-00.txt".toList = true ∧
    labelName "2020-01-01_00-00-00.txt".toList = false := by
  refine ⟨by decide, by decide, by decide, by decide⟩

/-! ### DateRange boundary behaviour (claim C9) -/

/-- C9: `DateRange.from_string("2018")` is the single-value range whose two
sides are both the pattern `(2018, *, *, *, *, *)`; it matches the pattern
`DatePattern(2018, None, None)` and does not match the concrete timestamp
`datetime(2019, 1, 1)`. -/
theorem date_range_2018_boundary :
    DateRange.from_string "2018".toList =
      .ok ⟨⟨some 2018, none, none, none, none, none⟩,
           ⟨some 2018, none, none, none, none, none⟩⟩ ∧
    DateRange.matches
      ⟨⟨some 2018, none, none, none, none, none⟩,
       ⟨some 2018, none, none, none, none, none⟩⟩
      (.pat ⟨some 2018, none, none, none, none, none⟩) = true ∧
    DateRange.matches
      ⟨⟨some 2018, none, none, none, none, none⟩,
       ⟨some 2018, none, none, none, none, none⟩⟩
      (.dt ⟨2019, 1, 1, 0, 0, 0⟩) = false := by
  refine ⟨by decide, by decide, by decide⟩

/-! ### The membership store: canonical form lemmas (claims C5, C6, C10) -/

theorem canonicalize_sorted {α : Type} [LinearOrder α] (l : List α) :
    List.Sorted (fun a b => a ≤ b) (canonicalize l) :=
  List.sorted_insertionSort _ _

theorem canonicalize_nodup {α : Type} [LinearOrder α] (l : List α) :
    (canonicalize l).Nodup :=
  ((List.perm_insertionSort _ _).nodup_iff).2 (List.nodup_dedup l)

theorem canonicalize_sorted_lt {α : Type} [LinearOrder α] (l : List α) :
    List.Sorted (fun a b => a < b) (canonicalize l) :=
  (canonicalize_sorted l).lt_of_le (canonicalize_nodup l)

theorem mem_canonicalize {α : Type} [LinearOrder α] {l : List α} {x : α} :
    x ∈ canonicalize l ↔ x ∈ l := by
  unfold canonicalize
  rw [(List.perm_insertionSort _ _).mem_iff, List.mem_dedup]

theorem canonicalize_eq_self {α : Type} [LinearOrder α] {l : List α}
    (hs : List.Sorted (fun a b => a < b) l) : canonicalize l = l := by
  unfold canonicalize
  rw [List.Nodup.dedup hs.nodup]
  exact List.Sorted.insertionSort_eq (hs.imp le_of_lt)

/-- Two sorted duplicate-free lists with the same members coincide, so any
list with the members of `l₁` that is strictly sorted is `canonicalize l₁`. -/
theorem canonicalize_eq_of_mem_iff {α : Type} [LinearOrder α] {l₁ l₂ : List α}
    (h₂ : List.Sorted (fun a b => a < b) l₂) (hm : ∀ x, x ∈ l₂ ↔ x ∈ l₁) :
    canonicalize l₁ = l₂ := by
  have hperm : (canonicalize l₁).Perm l₂ :=
    (List.perm_ext_iff_of_nodup (canonicalize_nodup l₁) h₂.nodup).2
      (fun a => by rw [mem_canonicalize, hm])
  exact List.eq_of_perm_of_sorted (r := fun a b => a ≤ b) hperm
    (canonicalize_sorted l₁) (h₂.imp le_of_lt)

/-- On a strictly sorted list containing `t`, the element at the
`bisect_left` insertion point is `t` itself. -/
theorem getElem_bisect_of_mem {α : Type} [LinearOrder α] {l : List α} {t : α}
    (hs : List.Sorted (fun a b => a < b) l) (hm : t ∈ l) :
    l[bisect_left l t]? = some t := by
  induction l with
  | nil => cases hm
  | cons a rest ih =>
      rw [List.sorted_cons] at hs
      unfold bisect_left
      rw [List.takeWhile_cons]
      by_cases hat : a < t
      · have hta : t ≠ a := ne_of_gt hat
        have hm' : t ∈ rest := by
          rcases List.mem_cons.1 hm with h | h
          · exact absurd h hta
          · exact h
        simpa [hat] using ih hs.2 hm'
      · have hta : t = a := by
          rcases List.mem_cons.1 hm with h | h
          · exact h
          · exact absurd (hs.1 t h) hat
        simp [hat, hta]

/-- On a strictly sorted list, `insertIdx` at the `bisect_left` position is
the ordered insertion. -/
theorem insertIdx_bisect_eq_orderedInsert {α : Type} [LinearOrder α]
    (l : List α) (t : α) :
    l.insertIdx (bisect_left l t) t = l.orderedInsert (fun a b => a ≤ b) t := by
  induction l with
  | nil => rfl
  | cons a rest ih =>
      unfold bisect_left at ih ⊢
      rw [List.takeWhile_cons]
      by_cases hat : a < t
      · have : ¬ t ≤ a := not_le.2 hat
        simp [hat, List.orderedInsert, this, List.insertIdx_succ_cons, ih]
      · have : t ≤ a := le_of_not_lt hat
        simp [hat, List.orderedInsert, this]

/-- The file written by `add_member` is always the canonical (sorted,
duplicate-free) form of the old lines together with the added tag —
in particular the whole file is rewritten even on a no-op call. -/
theorem add_member_file {α : Type} [LinearOrder α] (file : List α) (t : α) :
    (add_member file t).1 = canonicalize (file ++ [t]) := by
  unfold add_member
  by_cases h : (canonicalize file)[bisect_left (canonicalize file) t]? = some t
  · have ht : t ∈ canonicalize file := by
      rcases List.getElem?_eq_some_iff.1 h with ⟨hlt, hget⟩
      exact hget ▸ List.getElem_mem hlt
    have ht' : t ∈ file := mem_canonicalize.1 ht
    simp only [h, if_pos]
    refine (canonicalize_eq_of_mem_iff (canonicalize_sorted_lt file) ?_).symm
    intro x
    rw [mem_canonicalize, List.mem_append, List.mem_singleton]
    constructor
    · intro hx
      exact Or.inl hx
    · intro hx
      rcases hx with hx | hx
      · exact hx
      · exact hx ▸ ht'
  · have ht : t ∉ canonicalize file := by
      intro hmem
      exact h (getElem_bisect_of_mem (canonicalize_sorted_lt file) hmem)
    simp only [h, if_neg, not_false_iff]
    rw [insertIdx_bisect_eq_orderedInsert]
    have hsort : List.Sorted (fun a b => a ≤ b)
        ((canonicalize file).orderedInsert (fun a b => a ≤ b) t) :=
      List.Sorted.orderedInsert t _ (canonicalize_sorted file)
    have hperm := List.perm_orderedInsert (fun a b => a ≤ b) t (canonicalize file)
    have hnodup : ((canonicalize file).orderedInsert (fun a b => a ≤ b) t).Nodup :=
      hperm.nodup_iff.2 (List.nodup_cons.2 ⟨ht, canonicalize_nodup file⟩)
    refine (canonicalize_eq_of_mem_iff (hsort.lt_of_le hnodup) ?_).symm
    intro x
    rw [hperm.mem_iff, List.mem_cons, mem_canonicalize, List.mem_append,
      List.mem_singleton, or_comm]

/-- The file written by `remove_member` is always the canonical form of the
old lines with the tag erased — the whole file is rewritten even on a
no-op call. -/
theorem remove_member_file {α : Type} [LinearOrder α] (file : List α) (t : α) :
    (remove_member file t).1 = (canonicalize file).erase t := by
  unfold remove_member
  by_cases h : t ∈ canonicalize file
  · simp [h]
  · simp [h, List.erase_of_not_mem h]

/-- After any single `add_member` or `remove_member` call the member file
is strictly sorted (hence duplicate-free), whatever it contained before. -/
theorem applyOp_sorted {α : Type} [LinearOrder α] (file : List α)
    (op : MemberOp α) :
    List.Sorted (fun a b => a < b) (applyOp file op) := by
  cases op with
  | add t =>
      show List.Sorted _ (add_member file t).1
      rw [add_member_file]
      exact canonicalize_sorted_lt _
  | remove t =>
      show List.Sorted _ (remove_member file t).1
      rw [remove_member_file]
      exact List.Pairwise.sublist (List.erase_sublist t _) (canonicalize_sorted_lt file)

theorem foldl_applyOp_sorted {α : Type} [LinearOrder α]
    (ops : List (MemberOp α)) :
    ∀ file : List α, List.Sorted (fun a b => a < b) file →
      List.Sorted (fun a b => a < b) (ops.foldl applyOp file) := by
  induction ops with
  | nil => intro file h; exact h
  | cons op ops ih =>
      intro file _h
      exact ih (applyOp file op) (applyOp_sorted file op)

/-- C6: starting from an empty Label and applying any finite sequence of
`add_member`/`remove_member` calls, the member file (which is also what
`members()` yields, in line order) lists names in strictly ascending order
with no duplicates. -/
theorem members_sorted_after_ops {α : Type} [LinearOrder α]
    (ops : List (MemberOp α)) :
    List.Sorted (fun a b => a < b) (ops.foldl applyOp []) ∧
    (ops.foldl applyOp []).Nodup := by
  have h := foldl_applyOp_sorted ops [] List.sorted_nil
  exact ⟨h, h.nodup⟩

/-- On a strictly sorted member list that already contains the tag,
`add_member` reports no change and writes the list back unchanged. -/
theorem add_member_of_sorted_mem {α : Type} [LinearOrder α] {m : List α} {t : α}
    (hs : List.Sorted (fun a b => a < b) m) (hm : t ∈ m) :
    add_member m t = (m, false) := by
  have hcanon : canonicalize m = m := canonicalize_eq_self hs
  have hfind : (canonicalize m)[bisect_left (canonicalize m) t]? = some t := by
    rw [hcanon]
    exact getElem_bisect_of_mem hs hm
  rw [hcanon] at hfind
  unfold add_member
  simp only [hcanon, hfind, if_pos]

/-- C5: a second `add_member` of the same tag reports `changed = false` and
leaves the member list (hence its size) unchanged. -/
theorem add_member_idempotent {α : Type} [LinearOrder α] (file : List α) (t : α) :
    (add_member (add_member file t).1 t).2 = false ∧
    (add_member (add_member file t).1 t).1.length = (add_member file t).1.length := by
  have h1 : (add_member file t).1 = canonicalize (file ++ [t]) := add_member_file file t
  have hsort : List.Sorted (fun a b => a < b) (add_member file t).1 := by
    rw [h1]; exact canonicalize_sorted_lt _
  have hmem : t ∈ (add_member file t).1 := by
    rw [h1, mem_canonicalize, List.mem_append, List.mem_singleton]
    exact Or.inr rfl
  rw [add_member_of_sorted_mem hsort hmem]
  exact ⟨rfl, rfl⟩

/-- C10: `add_member` and `remove_member` rewrite the backing file on every
call, replacing its content with the deduplicated sorted member list even
when they report `changed = false`; a hand-edited file `[2, 1, 1]` is
canonicalized to `[1, 2]` by a no-op add of `1` or a no-op remove of `3`. -/
theorem write_members_always_canonicalizes :
    (∀ (α : Type) [LinearOrder α] (file : List α) (t : α),
      (add_member file t).1 = canonicalize (file ++ [t])) ∧
    (∀ (α : Type) [LinearOrder α] (file : List α) (t : α),
      (remove_member file t).1 = (canonicalize file).erase t) ∧
    add_member [2, 1, 1] (1 : ℕ) = ([1, 2], false) ∧
    remove_member [2, 1, 1] (3 : ℕ) = ([1, 2], false) ∧
    canonicalize [2, 1, 1] ≠ ([2, 1, 1] : List ℕ) := by
  refine ⟨fun α _ file t => add_member_file file t,
    fun α _ file t => remove_member_file file t, by decide, by decide, by decide⟩

/-! ### Error kinds of malformed date patterns (claim C8) -/

theorem except_bind_ok {ε α β : Type} (a : α) (f : α → Except ε β) :
    (Except.ok a >>= f : Except ε β) = f a := rfl

theorem except_bind_error {ε α β : Type} (e : ε) (f : α → Except ε β) :
    (Except.error e >>= f : Except ε β) = Except.error e := rfl

theorem except_pure {ε α : Type} (a : α) :
    (pure a : Except ε α) = Except.ok a := rfl

theorem splitLoop_ok_length (ts : List Char) :
    ∀ (ds : List Char) (rest : List Char) (r : List (List Char) × List Char),
      splitLoop ts ds rest = .ok r → r.1.length ≤ ds.length := by
  intro ds
  induction ds with
  | nil =>
      intro rest r h
      cases h
      simp
  | cons d ds ih =>
      intro rest r h
      simp only [splitLoop] at h
      split at h
      · cases h
      · split at h
        · cases h
        · split at h
          · rename_i tail _
            cases hrec : splitLoop ts ds tail with
            | error e => rw [hrec] at h; simp [Except.map] at h
            | ok r' =>
                rw [hrec] at h
                simp only [Except.map, Except.ok.injEq] at h
                subst h
                have := ih tail r' hrec
                simp only [List.length_cons]
                omega
          · cases h
            simp

theorem splitLoop_error_eq (ts : List Char) :
    ∀ (ds : List Char) (rest : List Char) (e : TagError),
      splitLoop ts ds rest = .error e → e = badTimestamp ts := by
  intro ds
  induction ds with
  | nil => intro rest e h; cases h
  | cons d ds ih =>
      intro rest e h
      simp only [splitLoop] at h
      split at h
      · cases h; rfl
      · split at h
        · cases h; rfl
        · split at h
          · rename_i tail _
            cases hrec : splitLoop ts ds tail with
            | error e' =>
                rw [hrec] at h
                simp only [Except.map, Except.error.injEq] at h
                subst h
                exact ih tail e' hrec
            | ok r' => rw [hrec] at h; simp [Except.map] at h
          · cases h

theorem split_timestamp_ok_length {s : List Char} {comps : List (List Char)}
    (h : split_timestamp s = .ok comps) : comps.length ≤ 6 := by
  unfold split_timestamp at h
  cases hloop : splitLoop s delimiters s with
  | error e => rw [hloop] at h; simp only [except_bind_error] at h; cases h
  | ok r =>
      rw [hloop] at h
      simp only [except_bind_ok] at h
      split at h
      · cases h
      · simp only [except_pure, Except.ok.injEq] at h
        have := splitLoop_ok_length s delimiters s r hloop
        subst h
        simp only [List.length_append, List.length_singleton]
        unfold delimiters at this
        simp at this
        omega

theorem split_timestamp_error_eq {s : List Char} {e : TagError}
    (h : split_timestamp s = .error e) : e = badTimestamp s := by
  unfold split_timestamp at h
  cases hloop : splitLoop s delimiters s with
  | error e' =>
      rw [hloop] at h
      simp only [except_bind_error, Except.error.injEq] at h
      subst h
      exact splitLoop_error_eq s delimiters s e' hloop
  | ok r =>
      rw [hloop] at h
      simp only [except_bind_ok] at h
      split at h
      · simp only [Except.error.injEq] at h
        exact h.symm
      · simp only [except_pure] at h
        cases h

theorem parse_element_error_kind {c : List Char} {e : TagError}
    (h : DatePattern.parse_element c = .error e) :
    e.exit_status = TagError.EXIT_BAD_DATE_PATTERN := by
  unfold DatePattern.parse_element at h
  by_cases hw : c = ['*']
  · simp [hw] at h
  · simp only [hw, if_neg, not_false_iff] at h
    cases hi : pyInt c with
    | some n => rw [hi] at h; cases h
    | none =>
        rw [hi] at h
        cases h
        rfl

theorem parseElements_error_kind :
    ∀ (comps : List (List Char)) (e : TagError),
      parseElements comps = .error e → e.exit_status = TagError.EXIT_BAD_DATE_PATTERN := by
  intro comps
  induction comps with
  | nil => intro e h; cases h
  | cons c cs ih =>
      intro e h
      unfold parseElements at h
      cases hc : DatePattern.parse_element c with
      | error e' =>
          rw [hc] at h
          simp only [except_bind_error, Except.error.injEq] at h
          subst h
          exact parse_element_error_kind hc
      | ok v =>
          rw [hc] at h
          simp only [except_bind_ok] at h
          cases hcs : parseElements cs with
          | error e' =>
              rw [hcs] at h
              simp only [except_bind_error, Except.error.injEq] at h
              subst h
              exact ih e' hcs
          | ok vs =>
              rw [hcs] at h
              simp only [except_bind_ok, except_pure] at h
              cases h

theorem parseElements_ok_all :
    ∀ (comps : List (List Char)) (es : List (Option Int)),
      parseElements comps = .ok es →
      ∀ c ∈ comps, c = ['*'] ∨ pyInt c ≠ none := by
  intro comps
  induction comps with
  | nil => intro es _ c hc; cases hc
  | cons c₀ cs ih =>
      intro es h c hc
      unfold parseElements at h
      cases hc₀ : DatePattern.parse_element c₀ with
      | error e' => rw [hc₀] at h; simp only [except_bind_error] at h; cases h
      | ok v =>
          rw [hc₀] at h
          simp only [except_bind_ok] at h
          cases hcs : parseElements cs with
          | error e' => rw [hcs] at h; simp only [except_bind_error] at h; cases h
          | ok vs =>
              rw [hcs] at h
              rcases List.mem_cons.1 hc with rfl | hmem
              · unfold DatePattern.parse_element at hc₀
                by_cases hw : c = ['*']
                · exact Or.inl hw
                · simp only [hw, if_neg, not_false_iff] at hc₀
                  cases hi : pyInt c with
                  | none => rw [hi] at hc₀; cases hc₀
                  | some n => exact Or.inr (by simp [hi])
              · exact ih vs hcs c hmem

/-- C8, as the code has it: malformed date-pattern text raises a `TagError`,
but not always of the `BadDatePattern` kind the claim names.  (1) The split
stage yields at most six components, so the `DatePattern` constructor's
too-many-elements branch is unreachable from `from_string`; (2) a delimiter
in the wrong place — and any other malformed split, including would-be
excess components — surfaces from `split_timestamp` as `BadTimestamp`
(exit status 35); (3) a component that is neither the wildcard token nor an
integer surfaces from `parse_element` as `BadDatePattern` (exit 36). -/
theorem date_pattern_error_kinds :
    (∀ (s : List Char) (comps : List (List Char)),
      split_timestamp s = .ok comps → comps.length ≤ 6) ∧
    (∀ (s : List Char) (e : TagError), split_timestamp s = .error e →
      DatePattern.from_string s = .error e ∧
      e.exit_status = TagError.EXIT_BAD_TIMESTAMP) ∧
    (∀ (s : List Char) (comps : List (List Char)) (c : List Char),
      split_timestamp s = .ok comps → c ∈ comps → c ≠ ['*'] → pyInt c = none →
      ∃ e, DatePattern.from_string s = .error e ∧
        e.exit_status = TagError.EXIT_BAD_DATE_PATTERN) := by
  refine ⟨fun s comps h => split_timestamp_ok_length h, ?_, ?_⟩
  · intro s e h
    refine ⟨?_, ?_⟩
    · unfold DatePattern.from_string
      rw [h]
      rfl
    · rw [split_timestamp_error_eq h]
      rfl
  · intro s comps c hsplit hc hw hn
    cases hpe : parseElements comps with
    | ok es =>
        rcases parseElements_ok_all comps es hpe c hc with h | h
        · exact absurd h hw
        · exact absurd hn h
    | error e =>
        refine ⟨e, ?_, parseElements_error_kind comps e hpe⟩
        unfold DatePattern.from_string
        rw [hsplit]
        simp only [except_bind_ok]
        rw [hpe]
        rfl

/-- C8 counterexample to the claim as stated: a dash/underscore mixing
input makes `DatePattern.from_string` fail with `BadTimestamp` (exit
status 35), not with a `BadDatePattern` (exit status 36) error. -/
theorem date_pattern_mixing_raises_bad_timestamp :
    DatePattern.from_string "2018_01".toList =
      .error (badTimestamp "2018_01".toList) ∧
    (badTimestamp "2018_01".toList).exit_status = TagError.EXIT_BAD_TIMESTAMP ∧
    TagError.EXIT_BAD_TIMESTAMP ≠ TagError.EXIT_BAD_DATE_PATTERN := by
  refine ⟨by decide, by decide, by decide⟩

/-- Concrete instantiation of `date_pattern_error_kinds`. -/
theorem date_pattern_error_kinds_witness :
    ([['2', '0', '1', '8']] : List (List Char)).length ≤ 6 ∧
    (DatePattern.from_string "2018_01".toList =
        .error (badTimestamp "2018_01".toList) ∧
      (badTimestamp "2018_01".toList).exit_status = TagError.EXIT_BAD_TIMESTAMP) ∧
    (∃ e, DatePattern.from_string "20x8".toList = .error e ∧
      e.exit_status = TagError.EXIT_BAD_DATE_PATTERN) :=
  ⟨date_pattern_error_kinds.1 "2018".toList [['2', '0', '1', '8']] (by decide),
   date_pattern_error_kinds.2.1 "2018_01".toList (badTimestamp "2018_01".toList)
     (by decide),
   date_pattern_error_kinds.2.2 "20x8".toList [['2', '0', 'x', '8']]
     ['2', '0', 'x', '8'] (by decide) (by decide) (by decide) (by decide)⟩

/-! ### Timestamp round trip (claim C4) -/

theorem option_bind_some {α β : Type} (a : α) (f : α → Option β) :
    (some a >>= f) = f a := rfl

theorem digitChar_isDigit {d : Nat} (h : d < 10) :
    isDigitChar (Nat.digitChar d) = true ∧ digitVal (Nat.digitChar d) = d := by
  interval_cases d <;> exact ⟨by decide, by decide⟩

theorem natStr_spec (n : Nat) :
    natStr n ≠ [] ∧ (∀ c ∈ natStr n, isDigitChar c = true) ∧
      digitsVal (natStr n) = n := by
  induction n using Nat.strong_induction_on with
  | _ n ih =>
      by_cases h : n < 10
      · rw [natStr, dif_pos h]
        refine ⟨by simp, ?_, ?_⟩
        · intro c hc
          rw [List.mem_singleton] at hc
          exact hc ▸ (digitChar_isDigit h).1
        · show digitsVal [Nat.digitChar n] = n
          unfold digitsVal
          simp only [List.foldl_cons, List.foldl_nil]
          rw [(digitChar_isDigit h).2]
          omega
      · rw [natStr, dif_neg h]
        have hlt : n / 10 < n := Nat.div_lt_self (by omega) (by omega)
        obtain ⟨hne, hdig, hval⟩ := ih (n / 10) hlt
        have hmod : n % 10 < 10 := Nat.mod_lt n (by omega)
        refine ⟨by simp, ?_, ?_⟩
        · intro c hc
          rcases List.mem_append.1 hc with hc | hc
          · exact hdig c hc
          · rw [List.mem_singleton] at hc
            exact hc ▸ (digitChar_isDigit hmod).1
        · unfold digitsVal
          rw [List.foldl_append]
          simp only [List.foldl_cons, List.foldl_nil]
          unfold digitsVal at hval
          rw [hval, (digitChar_isDigit hmod).2]
          omega

theorem natStr_length_le :
    ∀ (k n : Nat), 1 ≤ k → n < 10 ^ k → (natStr n).length ≤ k := by
  intro k
  induction k with
  | zero => intro n h; omega
  | succ k ih =>
      intro n _hk hn
      by_cases h : n < 10
      · rw [natStr, dif_pos h]
        simp
      · rw [natStr, dif_neg h]
        have hk1 : 1 ≤ k := by
          rcases Nat.eq_zero_or_pos k with rfl | hpos
          · norm_num at hn
            omega
          · exact hpos
        have hdiv : n / 10 < 10 ^ k := by
          rw [Nat.div_lt_iff_lt_mul (by norm_num)]
          calc n < 10 ^ (k + 1) := hn
            _ = 10 ^ k * 10 := by ring
        have := ih (n / 10) hk1 hdiv
        simp only [List.length_append, List.length_cons, List.length_nil]
        omega

theorem digitsVal_replicate_zero_append (k : Nat) (l : List Char) :
    digitsVal (List.replicate k '0' ++ l) = digitsVal l := by
  induction k with
  | zero => simp
  | succ k ih =>
      rw [List.replicate_succ, List.cons_append]
      show List.foldl _ (10 * 0 + digitVal '0') _ = _
      have h0 : 10 * 0 + digitVal '0' = 0 := by decide
      rw [h0]
      exact ih

theorem left_pad_of_le {l : List Char} {width : Nat} (h : l.length ≤ width) :
    left_pad l width '0' = some (List.replicate (width - l.length) '0' ++ l) := by
  unfold left_pad
  rw [if_neg (by omega)]

theorem padded_ne_nil (k n : Nat) : List.replicate k '0' ++ natStr n ≠ [] := by
  have := (natStr_spec n).1
  simp [this]

theorem padded_digits (k n : Nat) :
    ∀ c ∈ List.replicate k '0' ++ natStr n, isDigitChar c = true := by
  intro c hc
  rcases List.mem_append.1 hc with hc | hc
  · rw [List.eq_of_mem_replicate hc]
    decide
  · exact (natStr_spec n).2.1 c hc

theorem pyInt_padded (k n : Nat) :
    pyInt (List.replicate k '0' ++ natStr n) = some (n : Int) := by
  cases hl : List.replicate k '0' ++ natStr n with
  | nil => exact absurd hl (padded_ne_nil k n)
  | cons c rest =>
      have hc : isDigitChar c = true := padded_digits k n c (hl ▸ List.mem_cons_self c rest)
      have hplus : ¬ c = '+' := by
        intro h
        subst h
        exact absurd hc (by decide)
      have hminus : ¬ c = '-' := by
        intro h
        subst h
        exact absurd hc (by decide)
      have hred : pyInt (c :: rest) =
          if c = '+' then (digitsNat rest).map Int.ofNat
          else if c = '-' then (digitsNat rest).map (fun m => -(m : Int))
          else (digitsNat (c :: rest)).map Int.ofNat := rfl
      rw [hred, if_neg hplus, if_neg hminus]
      unfold digitsNat
      rw [if_pos ⟨by simp, List.all_eq_true.2
        (fun x hx => padded_digits k n x (hl ▸ hx))⟩]
      rw [show digitsVal (c :: rest) = digitsVal (List.replicate k '0' ++ natStr n)
        from hl ▸ rfl]
      rw [digitsVal_replicate_zero_append, (natStr_spec n).2.2]
      rfl

theorem digits_no_delim {l : List Char} (h : ∀ c ∈ l, isDigitChar c = true) :
    '-' ∉ l ∧ '_' ∉ l := by
  constructor
  · intro hmem
    exact absurd (h '-' hmem) (by decide)
  · intro hmem
    exact absurd (h '_' hmem) (by decide)

theorem splitOnce_append {d : Char} {a b : List Char} (h : ∀ c ∈ a, ¬ c = d) :
    splitOnce d (a ++ d :: b) = (a, some b) := by
  induction a with
  | nil => simp [splitOnce]
  | cons x xs ih =>
      have hx : ¬ x = d := h x (List.mem_cons_self x xs)
      rw [List.cons_append]
      unfold splitOnce
      rw [if_neg hx, ih (fun c hc => h c (List.mem_cons_of_mem x hc))]

theorem splitLoop_step_dash {ts : List Char} {ds a rest : List Char}
    (ha : a ≠ []) (hdig : ∀ c ∈ a, isDigitChar c = true) :
    splitLoop ts ('-' :: ds) (a ++ '-' :: rest) =
      Except.map (fun r => (a :: r.1, r.2)) (splitLoop ts ds rest) := by
  have hnod : ∀ c ∈ a, ¬ c = '-' := by
    intro c hc h
    exact absurd (hdig c hc) (h ▸ by decide)
  simp only [splitLoop]
  rw [splitOnce_append hnod]
  rw [if_neg (by simp [ha])]
  rw [if_neg (by simp [outlierOf, (digits_no_delim hdig).2])]

theorem splitLoop_step_underscore {ts : List Char} {ds a rest : List Char}
    (ha : a ≠ []) (hdig : ∀ c ∈ a, isDigitChar c = true) :
    splitLoop ts ('_' :: ds) (a ++ '_' :: rest) =
      Except.map (fun r => (a :: r.1, r.2)) (splitLoop ts ds rest) := by
  have hnod : ∀ c ∈ a, ¬ c = '_' := by
    intro c hc h
    exact absurd (hdig c hc) (h ▸ by decide)
  simp only [splitLoop]
  rw [splitOnce_append hnod]
  rw [if_neg (by simp [ha])]
  rw [if_neg (by simp [outlierOf, (digits_no_delim hdig).1])]

theorem split_timestamp_glue {c1 c2 c3 c4 c5 c6 : List Char}
    (h1 : c1 ≠ []) (hd1 : ∀ c ∈ c1, isDigitChar c = true)
    (h2 : c2 ≠ []) (hd2 : ∀ c ∈ c2, isDigitChar c = true)
    (h3 : c3 ≠ []) (hd3 : ∀ c ∈ c3, isDigitChar c = true)
    (h4 : c4 ≠ []) (hd4 : ∀ c ∈ c4, isDigitChar c = true)
    (h5 : c5 ≠ []) (hd5 : ∀ c ∈ c5, isDigitChar c = true)
    (hd6 : ∀ c ∈ c6, isDigitChar c = true) :
    split_timestamp
      (c1 ++ '-' :: (c2 ++ '-' :: (c3 ++ '_' :: (c4 ++ '-' :: (c5 ++ '-' :: c6))))) =
      .ok [c1, c2, c3, c4, c5, c6] := by
  unfold split_timestamp delimiters
  rw [splitLoop_step_dash h1 hd1, splitLoop_step_dash h2 hd2,
    splitLoop_step_underscore h3 hd3, splitLoop_step_dash h4 hd4,
    splitLoop_step_dash h5 hd5]
  rw [show splitLoop (c1 ++ '-' :: (c2 ++ '-' :: (c3 ++ '_' ::
    (c4 ++ '-' :: (c5 ++ '-' :: c6))))) [] c6 = .ok ([], c6) from rfl]
  simp only [Except.map, except_bind_ok]
  rw [if_neg (by simp [(digits_no_delim hd6).1, (digits_no_delim hd6).2])]
  rfl

/-- C4: for every valid timestamp, formatting succeeds and parsing the
formatted name yields exactly the original timestamp. -/
theorem parse_format_timestamp_roundtrip (t : Datetime) (h : t.valid) :
    (format_timestamp t).map parse_timestamp = some (Except.ok t) := by
  obtain ⟨hy1, hy2, hmo1, hmo2, hd1, hd2, hh, hmi, hs⟩ := h
  have hpow4 : (10 : Nat) ^ 4 = 10000 := by norm_num
  have hpow2 : (10 : Nat) ^ 2 = 100 := by norm_num
  have hday31 : t.day ≤ 31 := by
    have hdm : daysInMonth t.year t.month ≤ 31 := by
      unfold daysInMonth
      split
      · split <;> omega
      · split <;> omega
    omega
  have hylen : (natStr t.year).length ≤ 4 :=
    natStr_length_le 4 t.year (by omega) (by rw [hpow4]; omega)
  have hmolen : (natStr t.month).length ≤ 2 :=
    natStr_length_le 2 t.month (by omega) (by rw [hpow2]; omega)
  have hdlen : (natStr t.day).length ≤ 2 :=
    natStr_length_le 2 t.day (by omega) (by rw [hpow2]; omega)
  have hhlen : (natStr t.hour).length ≤ 2 :=
    natStr_length_le 2 t.hour (by omega) (by rw [hpow2]; omega)
  have hmilen : (natStr t.minute).length ≤ 2 :=
    natStr_length_le 2 t.minute (by omega) (by rw [hpow2]; omega)
  have hslen : (natStr t.second).length ≤ 2 :=
    natStr_length_le 2 t.second (by omega) (by rw [hpow2]; omega)
  unfold format_timestamp
  simp only [left_pad_of_le hylen, left_pad_of_le hmolen, left_pad_of_le hdlen,
    left_pad_of_le hhlen, left_pad_of_le hmilen, left_pad_of_le hslen,
    option_bind_some]
  rw [show ∀ (a : List Char), (pure a : Option (List Char)) = some a from fun a => rfl]
  rw [Option.map_some']
  congr 1
  unfold parse_timestamp
  rw [split_timestamp_glue
    (padded_ne_nil _ _) (padded_digits _ _) (padded_ne_nil _ _) (padded_digits _ _)
    (padded_ne_nil _ _) (padded_digits _ _) (padded_ne_nil _ _) (padded_digits _ _)
    (padded_ne_nil _ _) (padded_digits _ _) (padded_digits _ _)]
  rw [except_bind_ok]
  have hints : pyInts [List.replicate (4 - (natStr t.year).length) '0' ++ natStr t.year,
      List.replicate (2 - (natStr t.month).length) '0' ++ natStr t.month,
      List.replicate (2 - (natStr t.day).length) '0' ++ natStr t.day,
      List.replicate (2 - (natStr t.hour).length) '0' ++ natStr t.hour,
      List.replicate (2 - (natStr t.minute).length) '0' ++ natStr t.minute,
      List.replicate (2 - (natStr t.second).length) '0' ++ natStr t.second] =
      some [(t.year : Int), (t.month : Int), (t.day : Int),
        (t.hour : Int), (t.minute : Int), (t.second : Int)] := by
    simp only [pyInts, pyInt_padded, option_bind_some]
    rfl
  rw [hints]
  show (match mkDatetime _ with
    | none => Except.error _
    | some t' => pure t') = Except.ok t
  rw [show mkDatetime [(t.year : Int), (t.month : Int), (t.day : Int),
      (t.hour : Int), (t.minute : Int), (t.second : Int)] =
      mkDatetime6 t.year t.month t.day t.hour t.minute t.second from rfl]
  unfold mkDatetime6
  rw [if_pos]
  · simp only [Int.toNat_natCast]
    rfl
  · refine ⟨by omega, by omega, by omega, by omega, by omega, ?_,
      by omega, by omega, by omega, by omega, by omega, by omega⟩
    simp only [Int.toNat_natCast]
    omega

/-- Concrete instantiation of the round trip at `2020-01-01 00:00:00`. -/
theorem parse_format_timestamp_roundtrip_witness :
    Datetime.valid ⟨2020, 1, 1, 0, 0, 0⟩ ∧
    (format_timestamp ⟨2020, 1, 1, 0, 0, 0⟩).map parse_timestamp =
      some (Except.ok ⟨2020, 1, 1, 0, 0, 0⟩) :=
  ⟨by decide, parse_format_timestamp_roundtrip ⟨2020, 1, 1, 0, 0, 0⟩ (by decide)⟩

/-! ### Graph traversal lemmas (claims C3, C7) -/

theorem bfsExplore_zero {V : Type} [DecidableEq V] (members : V → List V)
    (vis : Finset V) (q : List V) : bfsExplore members 0 vis q = [] := rfl

theorem bfsExplore_nil {V : Type} [DecidableEq V] (members : V → List V)
    (fuel : Nat) (vis : Finset V) : bfsExplore members (fuel + 1) vis [] = [] := rfl

theorem bfsExplore_cons {V : Type} [DecidableEq V] (members : V → List V)
    (fuel : Nat) (vis : Finset V) (c : V) (rest : List V) :
    bfsExplore members (fuel + 1) vis (c :: rest) =
      c :: bfsExplore members fuel (insert c vis)
        (enqueue (insert c vis) rest (members c)) := rfl

theorem enqueue_nodup_not_vis {V : Type} [DecidableEq V] (vis : Finset V) :
    ∀ (ms queue : List V), queue.Nodup → (∀ x ∈ queue, x ∉ vis) →
      (enqueue vis queue ms).Nodup ∧ ∀ x ∈ enqueue vis queue ms, x ∉ vis := by
  intro ms
  induction ms with
  | nil => intro queue h1 h2; exact ⟨h1, h2⟩
  | cons m ms ih =>
      intro queue h1 h2
      unfold enqueue
      by_cases hm : m ∈ vis ∨ m ∈ queue
      · rw [if_pos hm]
        exact ih queue h1 h2
      · rw [if_neg hm]
        push_neg at hm
        refine ih (queue ++ [m]) ?_ ?_
        · exact List.Nodup.append h1 (List.nodup_singleton m)
            (fun a ha hb => hm.2 ((List.mem_singleton.1 hb) ▸ ha))
        · intro x hx
          rcases List.mem_append.1 hx with hx | hx
          · exact h2 x hx
          · rw [List.mem_singleton] at hx
            exact hx ▸ hm.1

theorem mem_enqueue_of_mem_queue {V : Type} [DecidableEq V] (vis : Finset V) :
    ∀ (ms queue : List V) (x : V), x ∈ queue → x ∈ enqueue vis queue ms := by
  intro ms
  induction ms with
  | nil => intro queue x hx; exact hx
  | cons m ms ih =>
      intro queue x hx
      unfold enqueue
      by_cases hm : m ∈ vis ∨ m ∈ queue
      · rw [if_pos hm]
        exact ih queue x hx
      · rw [if_neg hm]
        exact ih (queue ++ [m]) x (List.mem_append_left _ hx)

theorem mem_enqueue_of_mem_ms {V : Type} [DecidableEq V] (vis : Finset V) :
    ∀ (ms queue : List V) (m : V), m ∈ ms → m ∈ vis ∨ m ∈ enqueue vis queue ms := by
  intro ms
  induction ms with
  | nil => intro queue m hm; cases hm
  | cons m₀ ms ih =>
      intro queue m hm
      unfold enqueue
      by_cases h0 : m₀ ∈ vis ∨ m₀ ∈ queue
      · rw [if_pos h0]
        rcases List.mem_cons.1 hm with rfl | hm'
        · rcases h0 with h | h
          · exact Or.inl h
          · exact Or.inr (mem_enqueue_of_mem_queue vis ms queue m h)
        · exact ih queue m hm'
      · rw [if_neg h0]
        rcases List.mem_cons.1 hm with rfl | hm'
        · exact Or.inr (mem_enqueue_of_mem_queue vis ms (queue ++ [m]) m
            (List.mem_append_right _ (List.mem_singleton_self m)))
        · exact ih (queue ++ [m₀]) m hm'

theorem mem_of_mem_enqueue {V : Type} [DecidableEq V] (vis : Finset V) :
    ∀ (ms queue : List V) (x : V), x ∈ enqueue vis queue ms → x ∈ queue ∨ x ∈ ms := by
  intro ms
  induction ms with
  | nil => intro queue x hx; exact Or.inl hx
  | cons m ms ih =>
      intro queue x hx
      unfold enqueue at hx
      by_cases hm : m ∈ vis ∨ m ∈ queue
      · rw [if_pos hm] at hx
        rcases ih queue x hx with h | h
        · exact Or.inl h
        · exact Or.inr (List.mem_cons_of_mem m h)
      · rw [if_neg hm] at hx
        rcases ih (queue ++ [m]) x hx with h | h
        · rcases List.mem_append.1 h with h | h
          · exact Or.inl h
          · rw [List.mem_singleton] at h
            exact Or.inr (h ▸ List.mem_cons_self m ms)
        · exact Or.inr (List.mem_cons_of_mem m h)

theorem card_sdiff_insert_lt {V : Type} [DecidableEq V] [Fintype V]
    {vis : Finset V} {c : V} (hc : c ∉ vis) :
    (Finset.univ \ insert c vis).card < (Finset.univ \ vis).card := by
  apply Finset.card_lt_card
  rw [Finset.ssubset_iff_of_subset
    (Finset.sdiff_subset_sdiff le_rfl (Finset.subset_insert c vis))]
  exact ⟨c, by simp [hc], by simp⟩

theorem step_invariants {V : Type} [DecidableEq V] {vis : Finset V} {c : V}
    {rest : List V} (members : V → List V)
    (hnd : (c :: rest).Nodup) (hnv : ∀ x ∈ c :: rest, x ∉ vis) :
    c ∉ vis ∧
    (enqueue (insert c vis) rest (members c)).Nodup ∧
    (∀ x ∈ enqueue (insert c vis) rest (members c), x ∉ insert c vis) := by
  have hc : c ∉ vis := hnv c (List.mem_cons_self c rest)
  obtain ⟨hcr, hrnd⟩ := List.nodup_cons.1 hnd
  have hrv : ∀ x ∈ rest, x ∉ insert c vis := by
    intro x hx
    rw [Finset.mem_insert]
    rintro (rfl | hxv)
    · exact hcr hx
    · exact hnv x (List.mem_cons_of_mem c hx) hxv
  obtain ⟨h1, h2⟩ := enqueue_nodup_not_vis (insert c vis) (members c) rest hrnd hrv
  exact ⟨hc, h1, h2⟩

theorem bfsExplore_stable {V : Type} [DecidableEq V] [Fintype V]
    (members : V → List V) :
    ∀ (fuel : Nat) (vis : Finset V) (q : List V), q.Nodup → (∀ x ∈ q, x ∉ vis) →
      (Finset.univ \ vis).card ≤ fuel →
      bfsExplore members (fuel + 1) vis q = bfsExplore members fuel vis q := by
  intro fuel
  induction fuel with
  | zero =>
      intro vis q hnd hnv hf
      cases q with
      | nil => rfl
      | cons c rest =>
          exfalso
          have hc : c ∉ vis := hnv c (List.mem_cons_self c rest)
          have hmem : c ∈ Finset.univ \ vis := by simp [hc]
          have := Finset.card_pos.2 ⟨c, hmem⟩
          omega
  | succ fuel ih =>
      intro vis q hnd hnv hf
      cases q with
      | nil => rfl
      | cons c rest =>
          obtain ⟨hc, hqnd, hqnv⟩ := step_invariants members hnd hnv
          rw [bfsExplore_cons, bfsExplore_cons]
          congr 1
          refine ih (insert c vis) _ hqnd hqnv ?_
          have := card_sdiff_insert_lt hc
          omega

theorem bfsExplore_sound {V : Type} [DecidableEq V]
    (members : V → List V) (root : V) :
    ∀ (fuel : Nat) (vis : Finset V) (q : List V),
      (∀ x ∈ q, ReachesFrom members root x) →
      ∀ v ∈ bfsExplore members fuel vis q, ReachesFrom members root v := by
  intro fuel
  induction fuel with
  | zero =>
      intro vis q _ v hv
      rw [bfsExplore_zero] at hv
      cases hv
  | succ fuel ih =>
      intro vis q hq v hv
      cases q with
      | nil => rw [bfsExplore_nil] at hv; cases hv
      | cons c rest =>
          rw [bfsExplore_cons] at hv
          rcases List.mem_cons.1 hv with rfl | hv'
          · exact hq v (List.mem_cons_self _ _)
          · refine ih _ _ ?_ v hv'
            intro x hx
            rcases mem_of_mem_enqueue _ _ _ _ hx with h | h
            · exact hq x (List.mem_cons_of_mem c h)
            · exact (hq c (List.mem_cons_self c rest)).tail h

theorem mem_bfsExplore_of_mem_queue {V : Type} [DecidableEq V] [Fintype V]
    (members : V → List V) :
    ∀ (fuel : Nat) (vis : Finset V) (q : List V), q.Nodup → (∀ x ∈ q, x ∉ vis) →
      (Finset.univ \ vis).card ≤ fuel →
      ∀ x ∈ q, x ∈ bfsExplore members fuel vis q := by
  intro fuel
  induction fuel with
  | zero =>
      intro vis q hnd hnv hf x hx
      cases q with
      | nil => cases hx
      | cons c rest =>
          exfalso
          have hc : c ∉ vis := hnv c (List.mem_cons_self c rest)
          have hmem : c ∈ Finset.univ \ vis := by simp [hc]
          have := Finset.card_pos.2 ⟨c, hmem⟩
          omega
  | succ fuel ih =>
      intro vis q hnd hnv hf x hx
      cases q with
      | nil => cases hx
      | cons c rest =>
          rw [bfsExplore_cons]
          obtain ⟨hc, hqnd, hqnv⟩ := step_invariants members hnd hnv
          rcases List.mem_cons.1 hx with rfl | hx'
          · exact List.mem_cons_self _ _
          · refine List.mem_cons_of_mem c (ih _ _ hqnd hqnv ?_ x ?_)
            · have := card_sdiff_insert_lt hc
              omega
            · exact mem_enqueue_of_mem_queue _ _ _ x hx'

theorem bfsExplore_closed {V : Type} [DecidableEq V] [Fintype V]
    (members : V → List V) :
    ∀ (fuel : Nat) (vis : Finset V) (q : List V), q.Nodup → (∀ x ∈ q, x ∉ vis) →
      (Finset.univ \ vis).card ≤ fuel →
      ∀ x ∈ bfsExplore members fuel vis q, ∀ m ∈ members x,
        m ∈ vis ∨ m ∈ bfsExplore members fuel vis q := by
  intro fuel
  induction fuel with
  | zero =>
      intro vis q _ _ _ x hx
      rw [bfsExplore_zero] at hx
      cases hx
  | succ fuel ih =>
      intro vis q hnd hnv hf x hx m hm
      cases q with
      | nil => rw [bfsExplore_nil] at hx; cases hx
      | cons c rest =>
          obtain ⟨hc, hqnd, hqnv⟩ := step_invariants members hnd hnv
          have hf' : (Finset.univ \ insert c vis).card ≤ fuel := by
            have := card_sdiff_insert_lt hc
            omega
          rw [bfsExplore_cons] at hx ⊢
          rcases List.mem_cons.1 hx with rfl | hx'
          · rcases mem_enqueue_of_mem_ms (insert x vis) (members x) rest m hm with h | h
            · rcases Finset.mem_insert.1 h with rfl | h
              · exact Or.inr (List.mem_cons_self _ _)
              · exact Or.inl h
            · exact Or.inr (List.mem_cons_of_mem _
                (mem_bfsExplore_of_mem_queue members fuel _ _ hqnd hqnv hf' m h))
          · rcases ih _ _ hqnd hqnv hf' x hx' m hm with h | h
            · rcases Finset.mem_insert.1 h with rfl | h
              · exact Or.inr (List.mem_cons_self _ _)
              · exact Or.inl h
            · exact Or.inr (List.mem_cons_of_mem _ h)

theorem bfsExplore_nodup_not_vis {V : Type} [DecidableEq V]
    (members : V → List V) :
    ∀ (fuel : Nat) (vis : Finset V) (q : List V), q.Nodup → (∀ x ∈ q, x ∉ vis) →
      (bfsExplore members fuel vis q).Nodup ∧
      ∀ x ∈ bfsExplore members fuel vis q, x ∉ vis := by
  intro fuel
  induction fuel with
  | zero =>
      intro vis q _ _
      rw [bfsExplore_zero]
      exact ⟨List.nodup_nil, by simp⟩
  | succ fuel ih =>
      intro vis q hnd hnv
      cases q with
      | nil =>
          rw [bfsExplore_nil]
          exact ⟨List.nodup_nil, by simp⟩
      | cons c rest =>
          obtain ⟨hc, hqnd, hqnv⟩ := step_invariants members hnd hnv
          obtain ⟨hnd', hnv'⟩ := ih (insert c vis) _ hqnd hqnv
          rw [bfsExplore_cons]
          constructor
          · rw [List.nodup_cons]
            exact ⟨fun hmem => hnv' c hmem (Finset.mem_insert_self c vis), hnd'⟩
          · intro x hx
            rcases List.mem_cons.1 hx with rfl | hx'
            · exact hc
            · exact fun hxv => hnv' x hx' (Finset.mem_insert_of_mem hxv)

/-- C3: on every finite membership graph — cycles included — the traversal
of `AllTagsFrom` terminates (more fuel than the number of tags changes
nothing, so the pending queue empties with no depth bound involved), yields
no tag twice, and yields exactly the tags reachable from the root that pass
the type filter; the three-tag cycle 0 → 1 → 2 → 0 is traversed as
`[0, 1, 2]`. -/
theorem allTagsFrom_terminates_and_yields_each_reachable_once :
    (∀ (V : Type) [DecidableEq V] [Fintype V] (members : V → List V)
      (root : V) (extra : Nat),
      bfsExplore members (Fintype.card V + extra) ∅ [root] =
        bfsExplore members (Fintype.card V) ∅ [root]) ∧
    (∀ (V : Type) [DecidableEq V] [Fintype V] (members : V → List V)
      (keep : V → Bool) (root : V), (allTagsFrom members keep root).Nodup) ∧
    (∀ (V : Type) [DecidableEq V] [Fintype V] (members : V → List V)
      (keep : V → Bool) (root : V) (v : V),
      v ∈ allTagsFrom members keep root ↔
        ReachesFrom members root v ∧ keep v = true) ∧
    allTagsFrom (fun v : Fin 3 => [v + 1]) (fun _ => true) 0 = [0, 1, 2] := by
  have hcard : ∀ (V : Type) [DecidableEq V] [Fintype V],
      ((Finset.univ : Finset V) \ ∅).card ≤ Fintype.card V := by
    intro V _ _
    rw [Finset.sdiff_empty, Finset.card_univ]
  refine ⟨?_, ?_, ?_, by decide⟩
  · intro V _ _ members root extra
    induction extra with
    | zero => rfl
    | succ k ih =>
        rw [show Fintype.card V + (k + 1) = (Fintype.card V + k) + 1 from rfl]
        rw [bfsExplore_stable members (Fintype.card V + k) ∅ [root]
          (List.nodup_singleton root) (by simp) (by have := hcard V; omega)]
        exact ih
  · intro V _ _ members keep root
    exact List.Nodup.filter keep
      (bfsExplore_nodup_not_vis members (Fintype.card V) ∅ [root]
        (List.nodup_singleton root) (by simp)).1
  · intro V _ _ members keep root v
    unfold allTagsFrom
    rw [List.mem_filter]
    constructor
    · rintro ⟨hv, hkeep⟩
      refine ⟨?_, hkeep⟩
      refine bfsExplore_sound members root (Fintype.card V) ∅ [root] ?_ v hv
      intro x hx
      rw [List.mem_singleton] at hx
      exact hx ▸ Relation.ReflTransGen.refl
    · rintro ⟨hr, hkeep⟩
      refine ⟨?_, hkeep⟩
      clear hkeep
      unfold ReachesFrom at hr
      induction hr with
      | refl =>
          exact mem_bfsExplore_of_mem_queue members (Fintype.card V) ∅ [root]
            (List.nodup_singleton root) (by simp) (hcard V) root
            (List.mem_singleton_self root)
      | tail _hab hbc ihab =>
          rename_i b c'
          rcases bfsExplore_closed members (Fintype.card V) ∅ [root]
            (List.nodup_singleton root) (by simp) (hcard V) b ihab c' hbc with h | h
          · exact absurd h (Finset.not_mem_empty c')
          · exact h

/-! ### Members that no longer exist, and error propagation (claim C7) -/

theorem bfsExploreE_cons {V : Type} [DecidableEq V]
    (membersE : V → Except TagError (List V)) (keep : V → Bool)
    (fuel : Nat) (vis : Finset V) (c : V) (rest : List V) :
    bfsExploreE membersE keep (fuel + 1) vis (c :: rest) =
      (match membersE c with
       | .error e => .error e
       | .ok ms => do
           let out ← bfsExploreE membersE keep fuel (insert c vis)
             (enqueue (insert c vis) rest ms)
           pure (if keep c then c :: out else out)) := rfl

theorem checkMembers_first_missing :
    ∀ (disk : List Char → Bool) (lines : List (List Char)) (m : List Char),
      (∀ l ∈ lines, ∃ ty, tagTypeOf l = .ok ty) →
      lines.find? (fun l => !(disk l)) = some m →
      ∃ ty, tagTypeOf m = .ok ty ∧
        checkMembers disk lines = .error (notExistsError ty m) := by
  intro disk lines
  induction lines with
  | nil =>
      intro m _ hfind
      simp [List.find?] at hfind
  | cons l ls ih =>
      intro m hall hfind
      rw [List.find?_cons] at hfind
      obtain ⟨tyl, htyl⟩ := hall l (List.mem_cons_self l ls)
      by_cases hdl : disk l = true
      · rw [show (!(disk l)) = false by rw [hdl]; rfl] at hfind
        obtain ⟨ty, hty, herr⟩ :=
          ih m (fun x hx => hall x (List.mem_cons_of_mem l hx)) hfind
        refine ⟨ty, hty, ?_⟩
        unfold checkMembers
        rw [show memberCheck disk l = .ok (tyl, l) by
          unfold memberCheck
          rw [htyl, except_bind_ok, if_pos hdl]
          rfl]
        rw [except_bind_ok, herr]
        rfl
      · have hneg : (!(disk l)) = true := by
          rw [Bool.not_eq_true] at hdl
          rw [hdl]
          rfl
        rw [hneg] at hfind
        have hm : l = m := by
          cases hfind
          rfl
        subst hm
        refine ⟨tyl, htyl, ?_⟩
        unfold checkMembers
        rw [show memberCheck disk l = .error (notExistsError tyl l) by
          unfold memberCheck
          rw [htyl, except_bind_ok, if_neg hdl]]
        rfl

theorem bfsExploreE_ok_all_members :
    ∀ (V : Type) (_ : DecidableEq V) (membersE : V → Except TagError (List V))
      (keep : V → Bool) (fuel : Nat) (vis : Finset V) (q : List V) (out : List V),
      bfsExploreE membersE keep fuel vis q = .ok out →
      ∀ v ∈ out, ∃ ms, membersE v = .ok ms := by
  intro V instDec membersE keep fuel
  induction fuel with
  | zero =>
      intro vis q out h v hv
      cases q with
      | nil =>
          cases h
          cases hv
      | cons c rest =>
          cases h
          cases hv
  | succ fuel ih =>
      intro vis q out h v hv
      cases q with
      | nil =>
          cases h
          cases hv
      | cons c rest =>
          rw [bfsExploreE_cons] at h
          cases hmc : membersE c with
          | error e => rw [hmc] at h; cases h
          | ok ms =>
              rw [hmc] at h
              simp only [] at h
              cases hrec : bfsExploreE membersE keep fuel (insert c vis)
                  (enqueue (insert c vis) rest ms) with
              | error e =>
                  rw [hrec] at h
                  simp only [except_bind_error] at h
                  cases h
              | ok out' =>
                  rw [hrec] at h
                  simp only [except_bind_ok, except_pure, Except.ok.injEq] at h
                  subst h
                  by_cases hk : keep c = true
                  · rw [if_pos hk] at hv
                    rcases List.mem_cons.1 hv with rfl | hv'
                    · exact ⟨ms, hmc⟩
                    · exact ih (insert c vis) _ out' hrec v hv'
                  · rw [if_neg hk] at hv
                    exact ih (insert c vis) _ out' hrec v hv

/-- C7: a member line whose backing file is absent makes `Label.members`
fail with the "does not exist" error of the missing name's classified type
(Note gives exit 23, Label exit 25) instead of being skipped — the first
missing line determines the error — and the graph traversal propagates any
such failure: expanding a tag whose `members()` raises turns the whole
traversal into that error, and a traversal that returns a result list only
ever yielded tags whose `members()` succeeded. -/
theorem members_missing_fails_and_traversal_propagates :
    (∀ (disk : List Char → Bool) (self : List Char) (lines : List (List Char))
      (m : List Char),
      disk self = true →
      (∀ l ∈ lines, ∃ ty, tagTypeOf l = .ok ty) →
      lines.find? (fun l => !(disk l)) = some m →
      ∃ ty, tagTypeOf m = .ok ty ∧
        label_members disk self lines = .error (notExistsError ty m)) ∧
    (∀ (V : Type) [DecidableEq V] (membersE : V → Except TagError (List V))
      (keep : V → Bool) (fuel : Nat) (vis : Finset V) (c : V) (rest : List V)
      (e : TagError),
      membersE c = .error e →
      bfsExploreE membersE keep (fuel + 1) vis (c :: rest) = .error e) ∧
    (∀ (V : Type) [DecidableEq V] (membersE : V → Except TagError (List V))
      (keep : V → Bool) (fuel : Nat) (vis : Finset V) (q : List V) (out : List V),
      bfsExploreE membersE keep fuel vis q = .ok out →
      ∀ v ∈ out, ∃ ms, membersE v = .ok ms) := by
  refine ⟨?_, ?_, ?_⟩
  · intro disk self lines m hself hall hfind
    obtain ⟨ty, hty, herr⟩ := checkMembers_first_missing disk lines m hall hfind
    refine ⟨ty, hty, ?_⟩
    unfold label_members
    rw [if_pos hself]
    exact herr
  · intro V _ membersE keep fuel vis c rest e h
    rw [bfsExploreE_cons, h]
  · intro V instDec membersE keep fuel vis q out h v hv
    exact bfsExploreE_ok_all_members V instDec membersE keep fuel vis q out h v hv

/-- Concrete instantiation of
`members_missing_fails_and_traversal_propagates`: a label `l` listing the
member `b` whose file is absent fails with `LabelNotExists`, and a
traversal whose root's `members()` raises propagates that error. -/
theorem members_missing_fails_witness :
    (∃ ty, tagTypeOf ['b'] = .ok ty ∧
      label_members (fun n => decide (n ≠ ['b'])) ['l'] [['b']] =
        .error (notExistsError ty ['b'])) ∧
    bfsExploreE (fun _ : Bool => .error (notExistsError .label ['b']))
      (fun _ => true) 1 ∅ [true] = .error (notExistsError .label ['b']) :=
  ⟨members_missing_fails_and_traversal_propagates.1
      (fun n => decide (n ≠ ['b'])) ['l'] [['b']] ['b'] (by decide)
      (fun l hl => ⟨.label, by rw [List.mem_singleton.1 hl]; decide⟩) (by decide),
   members_missing_fails_and_traversal_propagates.2.1 Bool
      (fun _ : Bool => .error (notExistsError .label ['b'])) (fun _ => true)
      0 ∅ true [] (notExistsError .label ['b']) rfl⟩

end Tagnote
